import Mathlib

/-!
Verification development for the f1bot repository (RAG chatbot).

The TypeScript sources are shallowly embedded as Lean definitions:

* `src/app/api/chat/route.ts` — the `POST /api/chat` handler: message
  extraction, embedding/search/generation pipeline, error boundary.
* `src/scripts/clearDb.ts` (loadDb variant) — `createCollection`,
  `loadSampleData`'s embed-and-insert loop, `scrapePage`'s text cleanup,
  and the text-splitter configuration.

Strings are modelled as Lean `String` where only whole-string operations
occur, and as `List Char` where the algorithms walk characters.  The
effectful boundary (HTTP body parsing, OpenAI, Astra DB, streaming) is
modelled by `Except String` valued fields of a dependency record, since
the handler only propagates or catches those failures.

The text chunker is the external library `RecursiveCharacterTextSplitter`
from `@langchain/textsplitters`, whose implementation is not part of this
repository; the chunker definitions below are modelled from the spec
(section 4.3) as indicated in their doc comments.
-/

namespace F1Bot

/-! ### Conversation messages (route.ts lines 26-34) -/

/-- A message part, as in the structured message shape
`{ parts: [{ type, text? }, ...] }`.  The `text` field may be absent
(JavaScript `undefined`), hence `Option`. -/
structure MsgPart where
  type : String
  text : Option String
deriving DecidableEq, Repr

/-- A conversation message, polymorphic over the flat shape
`{ role, content }` and the structured shape `{ role, parts }`.
Absent fields are `none`. -/
structure ConversationMessage where
  role : String
  content : Option String
  parts : Option (List MsgPart)
deriving DecidableEq, Repr

/-- `parts.filter(p => p.type === "text").map(p => p.text).join("")`
(route.ts lines 30-31).  JavaScript `Array.join` renders an `undefined`
element as the empty string, hence `Option.getD ""`. -/
def partsText (ps : List MsgPart) : String :=
  String.join ((ps.filter (fun p => p.type == "text")).map (fun p => p.text.getD ""))

/-- The query extraction of the POST handler (route.ts lines 26-34):
take `messages[messages.length - 1]`; if it has a (truthy) `parts` array,
concatenate its `type == "text"` parts; otherwise if it has truthy
`content`, use that; otherwise the initial `""` stands.  A falsy
`content` (the empty string) leaves `userQuery` as `""`, which coincides
with the content itself, so the flat branch is simply `getD ""`. -/
def extractQuery (messages : List ConversationMessage) : String :=
  match messages.getLast? with
  | none => ""
  | some m =>
    match m.parts with
    | some ps => partsText ps
    | none => m.content.getD ""

/-- Resolution of a single message per the spec's polymorphic message
contract: the flat content string, or the in-order concatenation of the
text of all `type == "text"` parts when structured; the empty string when
no text is resolvable. -/
def resolveText (m : ConversationMessage) : String :=
  match m.parts with
  | some ps =>
    String.join (ps.filterMap (fun p => if p.type = "text" then some (p.text.getD "") else none))
  | none => m.content.getD ""

/-- Modelled from the spec: the extraction step as the spec states it
("take the last message with role user; resolve its text"), used to
compare against the code's `extractQuery`. -/
def specExtractQuery (messages : List ConversationMessage) : String :=
  match (messages.filter (fun m => m.role == "user")).getLast? with
  | none => ""
  | some m => resolveText m

/-! ### The POST handler pipeline (route.ts lines 21-98) -/

/-- A document returned by the vector search; only its `text` field is
read by the handler (route.ts line 61). -/
structure SearchDoc where
  text : String
deriving DecidableEq, Repr

/-- An HTTP response as the handler produces it: a status code and a
body (the streamed text, or the error JSON). -/
structure HttpResponse where
  status : Nat
  body : String
deriving DecidableEq, Repr

/-- The embedding model name used on the query path
(route.ts line 38). -/
def queryEmbeddingModel : String := "text-embedding-3-small"

/-- JavaScript `Array.prototype.join(sep)` on a list of strings. -/
def jsJoin (sep : String) : List String → String
  | [] => ""
  | [x] => x
  | x :: y :: r => x ++ sep ++ jsJoin sep (y :: r)

/-- JavaScript `a || b` for strings: `b` when `a` is falsy (empty). -/
def jsOr (a b : String) : String :=
  if a = "" then b else a

/-- `searchResults.map(doc => doc.text).join("\n\n") || ""`
(route.ts line 61). -/
def docContextOf (results : List SearchDoc) : String :=
  jsOr (jsJoin "\n\n" (results.map SearchDoc.text)) ""

/-- The part of the system prompt preceding the grounding context
(route.ts lines 64-78; the English instruction text before the opening
delimiter is abbreviated, no claim depends on its wording). -/
def promptHead : String := "START CONTEXT\n"

/-- The part of the system prompt following the grounding context
(route.ts lines 79-81). -/
def promptTail : String := "\nEND CONTEXT"

/-- The system prompt with the grounding context between the explicit
delimiters (route.ts lines 64-81). -/
def systemPrompt (docContext : String) : String :=
  promptHead ++ docContext ++ promptTail

/-- `JSON.stringify({ error: "Internal server error" })`
(route.ts line 93). -/
def internalErrorBody : String := "\x7b\"error\":\"Internal server error\"\x7d"

/-- The effectful collaborators of the handler.  `reqBody` is
`await req.json()` (already projected to its `messages` field), `embed`
is the OpenAI embeddings call (model name, input), `search` is the Astra
vector search for a query vector, `stream` is `streamText` plus
`toTextStreamResponse` (system prompt, conversation) producing the
response body.  Each may fail, carrying a provider error message. -/
structure ChatDeps where
  reqBody : Except String (List ConversationMessage)
  embed : String → String → Except String (List Rat)
  search : List Rat → Except String (List SearchDoc)
  stream : String → List ConversationMessage → Except String String

/-- The body of the `try` block of the POST handler (route.ts lines
22-90): extract the query, embed it, search, assemble the context,
build the system prompt, and start the stream. -/
def runPipeline (d : ChatDeps) : Except String String := do
  let messages ← d.reqBody
  let userQuery := extractQuery messages
  let queryEmbedding ← d.embed queryEmbeddingModel userQuery
  let searchResults ← d.search queryEmbedding
  let docContext := docContextOf searchResults
  let body ← d.stream (systemPrompt docContext) messages
  pure body

/-- The POST handler (route.ts lines 21-98): the `try` body on success
returns the streamed 200 response; any raised error is caught and mapped
to a 500 response with the fixed opaque JSON body. -/
def chatPOST (d : ChatDeps) : HttpResponse :=
  match runPipeline d with
  | .ok body => { status := 200, body := body }
  | .error _ => { status := 500, body := internalErrorBody }

/-! ### clearDb.ts: collection creation and ingestion -/

/-- The vector configuration passed to `db.createCollection`
(clearDb.ts lines 95-100). -/
structure VectorConfig where
  dimension : Nat
  metric : String
deriving DecidableEq, Repr

/-- The collection configuration fixed at creation: dimension 1536,
default similarity metric `dot_product` (clearDb.ts lines 93-100). -/
def collectionConfig : VectorConfig := { dimension := 1536, metric := "dot_product" }

/-- The embedding model name used on the ingestion path
(clearDb.ts line 125). -/
def ingestEmbeddingModel : String := "text-embedding-3-small"

/-- A record as inserted by `loadSampleData`:
`{ $vector: vector, text: chunk }` (clearDb.ts lines 131-134). -/
structure StoredRecord where
  vector : List Rat
  text : String
deriving DecidableEq, Repr

/-- The embed-and-insert loop of `loadSampleData` (clearDb.ts lines
123-141): for each chunk in order, call the embedding provider with the
ingestion model and insert the resulting vector together with the chunk
text.  A provider failure aborts the run (propagates). -/
def ingestChunks (provider : String → String → Except String (List Rat)) :
    List String → Except String (List StoredRecord)
  | [] => .ok []
  | chunk :: rest =>
    match provider ingestEmbeddingModel chunk with
    | .error e => .error e
    | .ok vector =>
      match ingestChunks provider rest with
      | .error e => .error e
      | .ok recs => .ok ({ vector := vector, text := chunk } :: recs)

/-- `createCollection`'s error handling (clearDb.ts lines 93-109): the
underlying creation attempt either succeeds, or fails with a message;
a failure whose message contains "already exists" is swallowed (logged
and treated as success), every other failure is rethrown. -/
def createCollection (attempt : Except String Unit) : Except String Unit :=
  match attempt with
  | .ok u => .ok u
  | .error msg =>
    if ("already exists").data <:+: msg.data then .ok () else .error msg

/-- Modelled from the spec: the vector store's creation attempt as a
function of whether the collection already exists — the second identical
`createCollection` call hits a provider failure whose message reports
that the collection already exists (spec section 4.5: "Already exists"
is treated as idempotent success). -/
def providerCreate (alreadyThere : Bool) : Except String Unit :=
  if alreadyThere then .error "Collection f1gpt already exists" else .ok ()

/-! ### scrapePage's text cleanup (clearDb.ts lines 199-207) -/

/-- Whitespace as matched by the JavaScript regex class `\s`
(restricted to the characters that occur in scraped text). -/
def isWsChar (c : Char) : Bool :=
  c == ' ' || c == '\n' || c == '\t' || c == '\r'

/-- `.replace(/<[^>]*>?/gm, '')` as a character scanner: outside a tag
(`false`) a `<` opens a tag and everything else is kept; inside a tag
(`true`) a `>` closes it and everything (including further `<`) is
dropped.  This matches the regex: each `<` starts a match that consumes
up to and including the next `>` (or the rest of the input), and a stray
`>` outside a match is kept. -/
def stripTags : Bool → List Char → List Char
  | _, [] => []
  | false, c :: r => if c = '<' then stripTags true r else c :: stripTags false r
  | true, c :: r => if c = '>' then stripTags false r else stripTags true r

/-- `.replace(/\s+/g, ' ')` as a scanner: `prevWs` records whether the
previous character belonged to a whitespace run; each maximal run is
rendered as one space. -/
def collapseWsAux : Bool → List Char → List Char
  | _, [] => []
  | prevWs, c :: r =>
    if isWsChar c then
      if prevWs then collapseWsAux true r else ' ' :: collapseWsAux true r
    else c :: collapseWsAux false r

/-- `.replace(/\s+/g, ' ')` (clearDb.ts line 204). -/
def collapseWs (l : List Char) : List Char := collapseWsAux false l

/-- `.replace(/\[edit\]/g, '')` (clearDb.ts line 205): delete every
occurrence of the six characters `[edit]`, scanning left to right. -/
def removeEdit : List Char → List Char
  | '[' :: 'e' :: 'd' :: 'i' :: 't' :: ']' :: r => removeEdit r
  | c :: r => c :: removeEdit r
  | [] => []

/-- `.trim()`: drop leading and trailing whitespace. -/
def trimWs (l : List Char) : List Char :=
  (l.dropWhile isWsChar).rdropWhile isWsChar

/-- The cleanup pipeline applied to the raw scraped content
(clearDb.ts lines 202-206): strip tags, collapse whitespace, remove
`[edit]` markers, trim.  The trailing `|| ''` maps an empty result to
itself and is dropped. -/
def scrapeCleanup (raw : List Char) : List Char :=
  trimWs (removeEdit (collapseWs (stripTags false raw)))

/-- Decides whether a character list is free of two adjacent whitespace
characters (no run of more than one consecutive whitespace). -/
def noWsRun : List Char → Bool
  | a :: b :: r => !(isWsChar a && isWsChar b) && noWsRun (b :: r)
  | _ => true

/-! ### The chunker

Modelled from the spec: the splitter used by `loadSampleData` is the
external library class `RecursiveCharacterTextSplitter` (clearDb.ts
lines 87-90 only configure `chunkSize: 512, chunkOverlap: 100`); its
implementation is not part of this repository, so the algorithm below is
taken from spec section 4.3: recursive multi-separator splitting
(paragraph boundary, then line boundary, then space boundary, then raw
character boundaries as last resort), greedy reassembly up to
`chunkSize`, and the previous chunk's trailing `overlap` characters
inserted at the start of the next chunk.  An indivisible separator-free
unit longer than `chunkSize` is carried into its chunk whole rather than
cut mid-unit. -/

/-- Modelled from the spec: splits a character list into consecutive
nonempty pieces, cutting between two adjacent characters exactly when
`cut` holds of the pair.  Concatenating the pieces restores the input. -/
def splitBy (cut : Char → Char → Bool) : List Char → List (List Char)
  | [] => []
  | [c] => [[c]]
  | a :: b :: rest =>
    match splitBy cut (b :: rest) with
    | [] => [[a]]
    | q :: qs => if cut a b then [a] :: q :: qs else (a :: q) :: qs

/-- Cut at a paragraph boundary: between two adjacent newline characters
(a blank line). -/
def paraCut (a b : Char) : Bool := a == '\n' && b == '\n'

/-- Cut at a line boundary: on either side of a newline character. -/
def lineCut (a b : Char) : Bool := a == '\n' || b == '\n'

/-- Cut at a space boundary: on either side of a space character. -/
def spaceCut (a b : Char) : Bool := a == ' ' || b == ' '

/-- Modelled from the spec: third splitting level — a piece that still
exceeds `chunkSize` is re-split at space boundaries; whatever remains
oversized after this level contains no usable separator and is kept as
an indivisible unit. -/
def piecesSpace (chunkSize : Nat) (p : List Char) : List (List Char) :=
  if p.length ≤ chunkSize then [p] else splitBy spaceCut p

/-- Modelled from the spec: second splitting level — an oversized piece
is re-split at line boundaries, and its fragments at space boundaries as
needed. -/
def piecesLine (chunkSize : Nat) (p : List Char) : List (List Char) :=
  if p.length ≤ chunkSize then [p]
  else (splitBy lineCut p).flatMap (piecesSpace chunkSize)

/-- Modelled from the spec: first splitting level — the text is split at
paragraph boundaries, and oversized fragments are re-split at line and
space boundaries. -/
def piecesOf (chunkSize : Nat) (t : List Char) : List (List Char) :=
  (splitBy paraCut t).flatMap (piecesLine chunkSize)

/-- The trailing `n` characters of a list (all of it when it is shorter
than `n`). -/
def lastN (n : Nat) (l : List Char) : List Char :=
  l.drop (l.length - n)

/-- Greedy accumulation: starting from `acc`, append whole pieces while
the accumulated length stays within `chunkSize`; return the accumulated
text and the unconsumed pieces. -/
def fill (chunkSize : Nat) : List Char → List (List Char) → List Char × List (List Char)
  | acc, [] => (acc, [])
  | acc, p :: ps =>
    if acc.length + p.length ≤ chunkSize then fill chunkSize (acc ++ p) ps
    else (acc, p :: ps)

/-- Fuel measure for `mergeChunks`: every recursive call strictly
decreases the total number of pieces plus characters. -/
def piecesWeight (pieces : List (List Char)) : Nat :=
  pieces.length + (pieces.map List.length).sum

/-- Modelled from the spec: reassembly of pieces into chunks.  Each
chunk starts from the previous chunk's trailing `overlap` characters
(`carry`; empty for the first chunk) and accumulates whole pieces
greedily up to `chunkSize`.  When the next piece does not fit: if the
chunk already holds at least `overlap` characters beyond an exact carry,
it is closed at this piece boundary; an indivisible oversized piece is
carried into the chunk whole (emitted oversized rather than cut
mid-unit); otherwise — as last resort — the piece is cut at a raw
character boundary so the chunk is filled to exactly `chunkSize`.
`fuel` bounds the recursion and `piecesWeight pieces + 1` always
suffices. -/
def mergeChunks (chunkSize overlap : Nat) : Nat → List Char → List (List Char) → List (List Char)
  | 0, _, _ => []
  | fuel + 1, carry, pieces =>
    match fill chunkSize carry pieces with
    | (acc, []) => [acc]
    | (acc, p :: ps) =>
      if overlap ≤ acc.length ∧ carry.length < acc.length then
        acc :: mergeChunks chunkSize overlap fuel (lastN overlap acc) (p :: ps)
      else if chunkSize < p.length ∨ chunkSize ≤ acc.length then
        match ps with
        | [] => [acc ++ p]
        | _ :: _ => (acc ++ p) :: mergeChunks chunkSize overlap fuel (lastN overlap (acc ++ p)) ps
      else
        (acc ++ p.take (chunkSize - acc.length)) ::
          mergeChunks chunkSize overlap fuel
            (lastN overlap (acc ++ p.take (chunkSize - acc.length)))
            (p.drop (chunkSize - acc.length) :: ps)

/-- The body of one `mergeChunks` step after `fill` has stopped with an
unconsumed piece; stated as its own definition so each branch has a
plain equation. -/
def mergeStep (cs ov n : Nat) (carry acc p : List Char) (ps : List (List Char)) :
    List (List Char) :=
  if ov ≤ acc.length ∧ carry.length < acc.length then
    acc :: mergeChunks cs ov n (lastN ov acc) (p :: ps)
  else if cs < p.length ∨ cs ≤ acc.length then
    match ps with
    | [] => [acc ++ p]
    | _ :: _ => (acc ++ p) :: mergeChunks cs ov n (lastN ov (acc ++ p)) ps
  else
    (acc ++ p.take (cs - acc.length)) ::
      mergeChunks cs ov n (lastN ov (acc ++ p.take (cs - acc.length)))
        (p.drop (cs - acc.length) :: ps)

/-- Modelled from the spec: `splitter.splitText` — a text not exceeding
`chunkSize` is a single chunk with no overlap applied; otherwise the
text is split into pieces at separator boundaries and the pieces are
reassembled into overlapping chunks. -/
def splitText (chunkSize overlap : Nat) (t : List Char) : List (List Char) :=
  if t.length ≤ chunkSize then [t]
  else mergeChunks chunkSize overlap (piecesWeight (piecesOf chunkSize t) + 1) []
    (piecesOf chunkSize t)

/-- Concatenation of chunks after discarding, from each chunk except the
first, its leading `overlap`-length head. -/
def reconstruct (overlap : Nat) : List (List Char) → List Char
  | [] => []
  | c :: rest => c ++ (rest.map (List.drop overlap)).flatten

/-- A character list containing no usable separator: no space and no
newline (hence also no blank line). -/
def sepFree (l : List Char) : Prop := ∀ c ∈ l, c ≠ '\n' ∧ c ≠ ' '

/-! ## Helper lemmas -/

/-- Filtering on a type test and then projecting the text agrees with a
single filterMap pass. -/
theorem partsText_eq_filterMap (ps : List MsgPart) :
    partsText ps =
      String.join (ps.filterMap (fun p => if p.type = "text" then some (p.text.getD "") else none)) := by
  unfold partsText
  congr 1
  induction ps with
  | nil => rfl
  | cons p ps ih =>
    by_cases hp : p.type = "text"
    · simp [List.filter_cons, List.filterMap_cons, hp, ih]
    · simp [List.filter_cons, List.filterMap_cons, hp, ih]

/-- The accumulator loop of `String.intercalate` is `jsJoin` with the
accumulator as the leading element. -/
theorem intercalate_go_spec (s : String) (bs : List String) :
    ∀ acc, String.intercalate.go acc s bs = jsJoin s (acc :: bs) := by
  induction bs with
  | nil => intro acc; rfl
  | cons b r ih =>
    intro acc
    show String.intercalate.go (acc ++ s ++ b) s r = _
    rw [ih (acc ++ s ++ b)]
    cases r with
    | nil => rfl
    | cons c r' =>
      show acc ++ s ++ b ++ s ++ jsJoin s (c :: r') = acc ++ s ++ (b ++ s ++ jsJoin s (c :: r'))
      simp only [String.append_assoc]

/-- The JavaScript `Array.join` agrees with `String.intercalate`. -/
theorem jsJoin_eq_intercalate (s : String) (l : List String) :
    jsJoin s l = String.intercalate s l := by
  cases l with
  | nil => rfl
  | cons a as => exact (intercalate_go_spec s as a).symm

/-! ## Claims about the POST handler's query extraction -/

/-- C8: a flat message and a structured two-part message carrying the
same text, each as the last message of a conversation, resolve to the
identical extracted query string. -/
theorem message_shape_equivalence :
    extractQuery [⟨"user", some "Who won 2023?", none⟩] = "Who won 2023?" ∧
    extractQuery
        [⟨"user", none, some [⟨"text", some "Who "⟩, ⟨"text", some "won 2023?"⟩]⟩]
      = "Who won 2023?" := by
  exact ⟨rfl, rfl⟩

/-- C10: when the last message carries both a parts array and a content
field, the extracted query comes exclusively from the `type == "text"`
parts, and a part of any other type contributes nothing. -/
theorem parts_precedence (msgs : List ConversationMessage) (m : ConversationMessage)
    (ps : List MsgPart) (c : String)
    (h1 : msgs.getLast? = some m) (h2 : m.parts = some ps) (_h3 : m.content = some c) :
    extractQuery msgs = partsText ps ∧
    ∀ (q : MsgPart) (ps1 ps2 : List MsgPart), q.type ≠ "text" →
      partsText (ps1 ++ q :: ps2) = partsText (ps1 ++ ps2) := by
  constructor
  · simp only [extractQuery, h1, h2]
  · intro q ps1 ps2 hq
    unfold partsText
    have hq' : (q.type == "text") = false := by
      simp [hq]
    simp [List.filter_append, List.filter_cons, hq']

/-- C10 witness: a message with both fields, a text part, and an image
part. -/
theorem parts_precedence_witness :
    extractQuery [⟨"user", some "ignored", some [⟨"text", some "hi"⟩, ⟨"image", some "x"⟩]⟩]
      = partsText [⟨"text", some "hi"⟩, ⟨"image", some "x"⟩] :=
  (parts_precedence
    [⟨"user", some "ignored", some [⟨"text", some "hi"⟩, ⟨"image", some "x"⟩]⟩]
    ⟨"user", some "ignored", some [⟨"text", some "hi"⟩, ⟨"image", some "x"⟩]⟩
    [⟨"text", some "hi"⟩, ⟨"image", some "x"⟩]
    "ignored" rfl rfl rfl).1

/-- C1 counterexample: on a conversation whose last message is from the
assistant, the handler extracts the assistant's text, not the text of
the last message with role "user" as the claim states. -/
theorem extractQuery_role_cex :
    extractQuery
        [⟨"user", some "Who won 2023?", none⟩, ⟨"assistant", some "The champion.", none⟩]
      = "The champion." ∧
    specExtractQuery
        [⟨"user", some "Who won 2023?", none⟩, ⟨"assistant", some "The champion.", none⟩]
      = "Who won 2023?" ∧
    ("The champion." : String) ≠ "Who won 2023?" := by
  refine ⟨rfl, by decide, by decide⟩

/-- C1 amended: the extracted query is the resolved text of the last
message of the conversation regardless of its role — the flat content
string, or the in-order concatenation of the `type == "text"` parts when
structured — and the empty string when no text is resolvable. -/
theorem extractQuery_last_message (msgs : List ConversationMessage)
    (m : ConversationMessage) (h : msgs.getLast? = some m) :
    extractQuery msgs = resolveText m := by
  simp only [extractQuery, resolveText, h]
  cases hp : m.parts with
  | none => rfl
  | some ps => exact partsText_eq_filterMap ps

/-- C1 amended witness. -/
theorem extractQuery_last_message_witness :
    extractQuery [⟨"user", some "Hello", none⟩] = resolveText ⟨"user", some "Hello", none⟩ :=
  extractQuery_last_message [⟨"user", some "Hello", none⟩] ⟨"user", some "Hello", none⟩ rfl

/-! ## Claims about the handler's error boundary and context assembly -/

/-- C5: whenever any step of the handler's pipeline fails, the response
is HTTP 500 with exactly the opaque JSON body — which is a fixed
constant, so no provider error text or other internal detail can appear
in the response. -/
theorem chatPOST_error_opacity (d : ChatDeps) (e : String)
    (h : runPipeline d = .error e) :
    chatPOST d = { status := 500, body := internalErrorBody } ∧
    internalErrorBody = "\x7b\"error\":\"Internal server error\"\x7d" := by
  constructor
  · unfold chatPOST
    rw [h]
  · rfl

/-- C5 witness: a dependency set whose body parse fails. -/
theorem chatPOST_error_opacity_witness :
    chatPOST
        { reqBody := .error "ECONNREFUSED 127.0.0.1:443",
          embed := fun _ _ => .error "unreachable",
          search := fun _ => .error "unreachable",
          stream := fun _ _ => .error "unreachable" }
      = { status := 500, body := internalErrorBody } :=
  (chatPOST_error_opacity
    { reqBody := .error "ECONNREFUSED 127.0.0.1:443",
      embed := fun _ _ => .error "unreachable",
      search := fun _ => .error "unreachable",
      stream := fun _ _ => .error "unreachable" }
    "ECONNREFUSED 127.0.0.1:443" rfl).1

/-- C6: the grounding context equals the result texts joined by a
blank-line separator in the order returned; on an empty result list it
is the empty string, and the handler still reaches generation and
returns its streamed output rather than failing. -/
theorem docContext_assembly :
    (∀ results : List SearchDoc,
       docContextOf results = String.intercalate "\n\n" (results.map SearchDoc.text)) ∧
    docContextOf [] = "" ∧
    (∀ (d : ChatDeps) (msgs : List ConversationMessage) (qv : List Rat) (out : String),
       d.reqBody = .ok msgs →
       d.embed queryEmbeddingModel (extractQuery msgs) = .ok qv →
       d.search qv = .ok [] →
       d.stream (systemPrompt "") msgs = .ok out →
       chatPOST d = { status := 200, body := out }) := by
  have hjoin : ∀ results : List SearchDoc,
      docContextOf results = String.intercalate "\n\n" (results.map SearchDoc.text) := by
    intro results
    unfold docContextOf jsOr
    rw [jsJoin_eq_intercalate]
    split <;> simp_all
  refine ⟨hjoin, rfl, ?_⟩
  intro d msgs qv out h1 h2 h3 h4
  have hrun : runPipeline d = .ok out := by
    unfold runPipeline
    rw [h1]
    show Except.bind (d.embed queryEmbeddingModel (extractQuery msgs)) _ = _
    rw [h2]
    show Except.bind (d.search qv) _ = _
    rw [h3]
    show Except.bind (d.stream (systemPrompt (docContextOf [])) msgs) _ = _
    rw [show docContextOf [] = "" from rfl, h4]
    rfl
  unfold chatPOST
  rw [hrun]

/-- C6 witness: all steps succeed and the search returns no documents;
the generation output is still streamed back with status 200. -/
theorem docContext_assembly_witness :
    chatPOST
        { reqBody := .ok [⟨"user", some "Hi", none⟩],
          embed := fun _ _ => .ok [1, 0],
          search := fun _ => .ok [],
          stream := fun _ _ => .ok "streamed answer" }
      = { status := 200, body := "streamed answer" } :=
  docContext_assembly.2.2
    { reqBody := .ok [⟨"user", some "Hi", none⟩],
      embed := fun _ _ => .ok [1, 0],
      search := fun _ => .ok [],
      stream := fun _ _ => .ok "streamed answer" }
    [⟨"user", some "Hi", none⟩] [1, 0] "streamed answer" rfl rfl rfl rfl

/-! ## Claims about the ingestion scripts -/

/-- C7: a creation failure whose message contains "already exists" is
swallowed and surfaces as success; every other creation failure
propagates unchanged; in particular the second of two identical
`createCollection` calls (whose attempt the store rejects as already
existing) raises no user-visible error. -/
theorem createCollection_idempotent :
    (∀ msg : String, ("already exists").data <:+: msg.data →
       createCollection (.error msg) = .ok ()) ∧
    (∀ msg : String, ¬ ("already exists").data <:+: msg.data →
       createCollection (.error msg) = .error msg) ∧
    createCollection (providerCreate false) = .ok () ∧
    createCollection (providerCreate true) = .ok () := by
  have hswallow : ∀ msg : String, ("already exists").data <:+: msg.data →
      createCollection (.error msg) = .ok () := by
    intro msg h
    show (if ("already exists").data <:+: msg.data then Except.ok () else Except.error msg)
      = Except.ok ()
    rw [if_pos h]
  refine ⟨hswallow, ?_, rfl, ?_⟩
  · intro msg h
    show (if ("already exists").data <:+: msg.data then Except.ok () else Except.error msg)
      = Except.error msg
    rw [if_neg h]
  · exact hswallow "Collection f1gpt already exists" (by decide)

/-- C7 witness: a concrete "already exists" provider message is
swallowed. -/
theorem createCollection_idempotent_witness :
    createCollection (.error "Collection f1gpt already exists") = .ok () :=
  createCollection_idempotent.1 "Collection f1gpt already exists" (by decide)

/-- C9: the ingestion path and the query path name the same embedding
model, the collection is created with dimension 1536, and — given that
the provider returns vectors of length 1536 for that model — every
vector inserted by the ingestion loop and every query vector produced on
the query path has exactly the declared dimension. -/
theorem embedding_model_consistency :
    ingestEmbeddingModel = queryEmbeddingModel ∧
    collectionConfig.dimension = 1536 ∧
    ∀ provider : String → String → Except String (List Rat),
      (∀ s v, provider ingestEmbeddingModel s = .ok v → v.length = 1536) →
      (∀ chunks recs, ingestChunks provider chunks = .ok recs →
         ∀ r ∈ recs, r.vector.length = collectionConfig.dimension) ∧
      (∀ q v, provider queryEmbeddingModel q = .ok v →
         v.length = collectionConfig.dimension) := by
  refine ⟨rfl, rfl, ?_⟩
  intro provider hdim
  constructor
  · intro chunks
    induction chunks with
    | nil =>
      intro recs h r hr
      cases h
      cases hr
    | cons c cs ih =>
      intro recs h r hr
      rw [show ingestChunks provider (c :: cs)
            = (match provider ingestEmbeddingModel c with
               | .error e => .error e
               | .ok vector =>
                 match ingestChunks provider cs with
                 | .error e => .error e
                 | .ok recs => .ok ({ vector := vector, text := c } :: recs))
          from rfl] at h
      cases hc : provider ingestEmbeddingModel c with
      | error e => rw [hc] at h; cases h
      | ok v =>
        rw [hc] at h
        cases hcs : ingestChunks provider cs with
        | error e => rw [hcs] at h; cases h
        | ok rs =>
          rw [hcs] at h
          cases h
          rcases List.mem_cons.mp hr with h | h
          · subst h
            exact hdim c v hc
          · exact ih rs hcs r h
  · intro q v hv
    exact hdim q v hv

/-- C9 witness: a provider returning 1536-dimensional vectors makes the
query vector match the declared collection dimension. -/
theorem embedding_model_consistency_witness :
    (List.replicate 1536 (0 : Rat)).length = collectionConfig.dimension :=
  (embedding_model_consistency.2.2 (fun _ _ => .ok (List.replicate 1536 (0 : Rat)))
    (fun _ v h => by
      injection h with h2
      rw [← h2]
      exact List.length_replicate 1536 0)).2
    "Who won 2023?" (List.replicate 1536 (0 : Rat)) rfl

/-! ## Lemmas about the scrape cleanup -/

/-- The tag stripper never emits a left angle bracket. -/
theorem stripTags_no_lt : ∀ (l : List Char) (b : Bool), '<' ∉ stripTags b l := by
  intro l
  induction l with
  | nil => intro b; cases b <;> simp [stripTags]
  | cons c r ih =>
    intro b
    cases b with
    | false =>
      by_cases hc : c = '<'
      · simpa [stripTags, hc] using ih true
      · simp only [stripTags, if_neg hc, List.mem_cons]
        rintro (h | h)
        · exact hc h.symm
        · exact ih false h
    | true =>
      by_cases hc : c = '>'
      · simpa [stripTags, hc] using ih false
      · simpa [stripTags, hc] using ih true

/-- Every character emitted by the whitespace collapser is either from
the input or a space. -/
theorem collapseWsAux_mem :
    ∀ (l : List Char) (b : Bool) (c : Char), c ∈ collapseWsAux b l → c ∈ l ∨ c = ' ' := by
  intro l
  induction l with
  | nil => intro b c hc; simp [collapseWsAux] at hc
  | cons a r ih =>
    intro b c hc
    by_cases ha : isWsChar a
    · cases b with
      | true =>
        simp only [collapseWsAux, ha, if_pos] at hc
        rcases ih true c hc with h | h
        · exact Or.inl (List.mem_cons_of_mem a h)
        · exact Or.inr h
      | false =>
        simp only [collapseWsAux, ha, if_pos] at hc
        rcases List.mem_cons.mp hc with h | h
        · exact Or.inr h
        · rcases ih true c h with h2 | h2
          · exact Or.inl (List.mem_cons_of_mem a h2)
          · exact Or.inr h2
    · simp only [collapseWsAux, ha] at hc
      rcases List.mem_cons.mp hc with h | h
      · exact Or.inl (h ▸ List.mem_cons_self a r)
      · rcases ih false c h with h2 | h2
        · exact Or.inl (List.mem_cons_of_mem a h2)
        · exact Or.inr h2

/-- Step equation for `removeEdit` when the head does not start the
`[edit]` token. -/
theorem removeEdit_cons_ne (c : Char) (r : List Char)
    (hne : ∀ r1 : List Char, c = '[' → r = 'e' :: 'd' :: 'i' :: 't' :: ']' :: r1 → False) :
    removeEdit (c :: r) = c :: removeEdit r := by
  rw [removeEdit.eq_def]
  split
  · rename_i h
    injection h with h1 h2
    exact (hne _ h1 h2).elim
  · rename_i heq
    injection heq with e1 e2
    rw [← e1, ← e2]
  · rename_i heq
    exact absurd heq (by simp)

/-- `removeEdit` only deletes characters. -/
theorem removeEdit_subset : ∀ (l : List Char) (c : Char), c ∈ removeEdit l → c ∈ l := by
  intro l
  induction l using removeEdit.induct with
  | case1 r ih =>
    intro c hc
    simp only [removeEdit] at hc
    simp [ih c hc]
  | case2 c r hne ih =>
    intro x hx
    rw [removeEdit_cons_ne c r hne] at hx
    rcases List.mem_cons.mp hx with h | h
    · simp [h]
    · exact List.mem_cons_of_mem c (ih x h)
  | case3 =>
    intro c hc
    simp [removeEdit] at hc

/-- When the text contains no `[edit]` token, `removeEdit` is the
identity. -/
theorem removeEdit_eq_self :
    ∀ l : List Char, ¬ (("[edit]").data <:+: l) → removeEdit l = l := by
  intro l
  induction l using removeEdit.induct with
  | case1 r ih =>
    intro h
    exact absurd ⟨[], r, rfl⟩ h
  | case2 c r hne ih =>
    intro h
    rw [removeEdit_cons_ne c r hne, ih (fun hin => h (List.infix_cons hin))]
  | case3 =>
    intro _
    rfl

/-- The head of the collapser's output in the inside-a-run state is
never whitespace. -/
theorem collapse_head_not :
    ∀ (l : List Char) (c : Char),
      (collapseWsAux true l).head? = some c → isWsChar c = false := by
  intro l
  induction l with
  | nil => intro c hc; simp [collapseWsAux] at hc
  | cons a r ih =>
    intro c hc
    by_cases ha : isWsChar a
    · rw [show collapseWsAux true (a :: r) = collapseWsAux true r from by
        simp [collapseWsAux, ha]] at hc
      exact ih c hc
    · rw [show collapseWsAux true (a :: r) = a :: collapseWsAux false r from by
        simp [collapseWsAux, ha]] at hc
      injection hc with hc2
      rw [← hc2]
      exact eq_false_of_ne_true ha

/-- `noWsRun` as an adjacent-pair chain. -/
theorem noWsRun_iff_chain :
    ∀ l : List Char,
      noWsRun l = true ↔ List.Chain' (fun a b => (isWsChar a && isWsChar b) = false) l := by
  intro l
  induction l with
  | nil => simp [noWsRun]
  | cons a r ih =>
    cases r with
    | nil => simp [noWsRun]
    | cons b r' =>
      rw [show noWsRun (a :: b :: r') = (!(isWsChar a && isWsChar b) && noWsRun (b :: r'))
          from rfl]
      rw [List.chain'_cons, Bool.and_eq_true, Bool.not_eq_true']
      exact and_congr Iff.rfl ih

/-- The collapser's output never contains two adjacent whitespace
characters. -/
theorem collapse_noWsRun : ∀ (l : List Char) (b : Bool), noWsRun (collapseWsAux b l) = true := by
  intro l
  induction l with
  | nil => intro b; rfl
  | cons a r ih =>
    intro b
    by_cases ha : isWsChar a
    · cases b with
      | true =>
        rw [show collapseWsAux true (a :: r) = collapseWsAux true r from by
          simp [collapseWsAux, ha]]
        exact ih true
      | false =>
        rw [show collapseWsAux false (a :: r) = ' ' :: collapseWsAux true r from by
          simp [collapseWsAux, ha]]
        cases hr : collapseWsAux true r with
        | nil => rfl
        | cons x xs =>
          rw [show noWsRun (' ' :: x :: xs) = (!(isWsChar ' ' && isWsChar x) && noWsRun (x :: xs))
              from rfl]
          rw [collapse_head_not r x (by rw [hr]; rfl)]
          rw [← hr]
          simp [ih true]
    · rw [show collapseWsAux b (a :: r) = a :: collapseWsAux false r from by
        cases b <;> simp [collapseWsAux, ha]]
      cases hr : collapseWsAux false r with
      | nil => rfl
      | cons x xs =>
        rw [show noWsRun (a :: x :: xs) = (!(isWsChar a && isWsChar x) && noWsRun (x :: xs))
            from rfl]
        rw [← hr]
        simp [eq_false_of_ne_true ha, ih false]

/-- C4 counterexample: the code collapses whitespace before removing
`[edit]` markers, so removing a marker that sits between two spaces
leaves a two-space run in the final output. -/
theorem scrapeCleanup_ws_run_cex :
    scrapeCleanup ("a [edit] b").data = ("a  b").data ∧
    noWsRun (scrapeCleanup ("a [edit] b").data) = false := by
  exact ⟨by decide, by decide⟩

/-- C4 amended: the cleanup output contains no tag syntax (no `<`
survives, so no complete tag does) and is trimmed of leading and
trailing whitespace; and whenever the intermediate tag-stripped,
whitespace-collapsed text contains no `[edit]` marker, the output also
contains no run of more than one consecutive whitespace character. -/
theorem scrapeCleanup_guarantees (raw : List Char) :
    ('<' ∉ scrapeCleanup raw) ∧
    (∀ c, (scrapeCleanup raw).head? = some c → isWsChar c = false) ∧
    (∀ c, (scrapeCleanup raw).getLast? = some c → isWsChar c = false) ∧
    ((¬ (("[edit]").data <:+: collapseWs (stripTags false raw))) →
       noWsRun (scrapeCleanup raw) = true) := by
  have hsub : ∀ c, c ∈ scrapeCleanup raw → c ∈ removeEdit (collapseWs (stripTags false raw)) := by
    intro c hc
    have hc1 : c ∈ (((removeEdit (collapseWs (stripTags false raw))).dropWhile
        isWsChar).reverse.dropWhile isWsChar).reverse := hc
    rw [List.mem_reverse] at hc1
    have hc2 := (List.dropWhile_suffix isWsChar).sublist.mem hc1
    rw [List.mem_reverse] at hc2
    exact (List.dropWhile_suffix isWsChar).sublist.mem hc2
  refine ⟨?_, ?_, ?_, ?_⟩
  · intro hmem
    have h1 := removeEdit_subset _ _ (hsub '<' hmem)
    rcases collapseWsAux_mem _ false '<' h1 with h2 | h2
    · exact stripTags_no_lt raw false h2
    · exact absurd h2 (by decide)
  · intro c hc
    have hc1 : (((removeEdit (collapseWs (stripTags false raw))).dropWhile
        isWsChar).rdropWhile isWsChar).head? = some c := hc
    obtain ⟨t, ht⟩ := List.rdropWhile_prefix isWsChar
      ((removeEdit (collapseWs (stripTags false raw))).dropWhile isWsChar)
    have hne : ((removeEdit (collapseWs (stripTags false raw))).dropWhile
        isWsChar).rdropWhile isWsChar ≠ [] := by
      intro h0
      rw [h0] at hc1
      cases hc1
    have hhead : ((removeEdit (collapseWs (stripTags false raw))).dropWhile
        isWsChar).head? = some c := by
      rw [← ht, List.head?_append_of_ne_nil _ hne, hc1]
    have hdw := List.head?_dropWhile_not isWsChar (removeEdit (collapseWs (stripTags false raw)))
    rw [hhead] at hdw
    exact hdw
  · intro c hc
    have hc1 : ((((removeEdit (collapseWs (stripTags false raw))).dropWhile
        isWsChar).reverse.dropWhile isWsChar).reverse).getLast? = some c := hc
    rw [List.getLast?_reverse] at hc1
    have hdw := List.head?_dropWhile_not isWsChar
      ((removeEdit (collapseWs (stripTags false raw))).dropWhile isWsChar).reverse
    rw [hc1] at hdw
    exact hdw
  · intro hno
    unfold scrapeCleanup
    rw [removeEdit_eq_self _ hno]
    rw [noWsRun_iff_chain]
    have hchain : List.Chain' (fun a b => (isWsChar a && isWsChar b) = false)
        (collapseWs (stripTags false raw)) :=
      (noWsRun_iff_chain _).mp (collapse_noWsRun (stripTags false raw) false)
    have h1 : List.Chain' (fun a b => (isWsChar a && isWsChar b) = false)
        ((collapseWs (stripTags false raw)).dropWhile isWsChar) :=
      hchain.suffix (List.dropWhile_suffix isWsChar)
    exact h1.prefix (List.rdropWhile_prefix isWsChar _)

/-- C4 amended witness: a raw page fragment with markup and uneven
whitespace but no edit marker cleans to a run-free trimmed text. -/
theorem scrapeCleanup_guarantees_witness :
    noWsRun (scrapeCleanup ("  <p>Max  Verstappen</p> wins ").data) = true :=
  (scrapeCleanup_guarantees ("  <p>Max  Verstappen</p> wins ").data).2.2.2 (by decide)

/-! ## Lemmas about the chunker -/

/-- Step equation for `splitBy` on a list with at least two elements. -/
theorem splitBy_pair (cut : Char → Char → Bool) (a b : Char) (rest : List Char) :
    splitBy cut (a :: b :: rest) =
      match splitBy cut (b :: rest) with
      | [] => [[a]]
      | q :: qs => if cut a b then [a] :: q :: qs else (a :: q) :: qs := rfl

/-- The first piece of a split of a nonempty list starts with the first
character of the list. -/
theorem splitBy_cons_head (cut : Char → Char → Bool) :
    ∀ (xs : List Char) (x : Char), ∃ t qs, splitBy cut (x :: xs) = (x :: t) :: qs := by
  intro xs
  induction xs with
  | nil => intro x; exact ⟨[], [], rfl⟩
  | cons b rest ih =>
    intro x
    obtain ⟨t, qs, h⟩ := ih b
    cases hc : cut x b with
    | true =>
      refine ⟨[], (b :: t) :: qs, ?_⟩
      rw [splitBy_pair, h]
      simp [hc]
    | false =>
      refine ⟨b :: t, qs, ?_⟩
      rw [splitBy_pair, h]
      simp [hc]

/-- Concatenating the pieces of a split restores the input. -/
theorem splitBy_flatten (cut : Char → Char → Bool) :
    ∀ l : List Char, (splitBy cut l).flatten = l := by
  intro l
  induction l with
  | nil => rfl
  | cons a l' ih =>
    cases l' with
    | nil => rfl
    | cons b rest =>
      rw [splitBy_pair]
      cases h : splitBy cut (b :: rest) with
      | nil =>
        obtain ⟨t, qs, h2⟩ := splitBy_cons_head cut rest b
        rw [h] at h2
        cases h2
      | cons q qs =>
        rw [h] at ih
        show ((if cut a b = true then [a] :: q :: qs else (a :: q) :: qs)).flatten
          = a :: b :: rest
        by_cases hc : cut a b = true
        · rw [if_pos hc]
          simp only [List.flatten_cons, List.singleton_append, List.append_assoc] at *
          rw [ih]
        · rw [if_neg hc]
          simp only [List.flatten_cons, List.cons_append, List.append_assoc] at *
          rw [ih]

/-- Every character of a piece of a split occurs in the input. -/
theorem splitBy_chars (cut : Char → Char → Bool) (l q : List Char)
    (hq : q ∈ splitBy cut l) (c : Char) (hc : c ∈ q) : c ∈ l := by
  rw [← splitBy_flatten cut l]
  exact List.mem_flatten.mpr ⟨q, hq, hc⟩

/-- Within a piece of a split, no adjacent pair satisfies the cut
predicate. -/
theorem splitBy_chain (cut : Char → Char → Bool) :
    ∀ l q, q ∈ splitBy cut l → List.Chain' (fun a b => cut a b = false) q := by
  intro l
  induction l with
  | nil => intro q hq; cases hq
  | cons a l' ih =>
    cases l' with
    | nil =>
      intro q hq
      rcases List.mem_singleton.mp hq with rfl
      exact List.chain'_singleton a
    | cons b rest =>
      intro q hq
      rw [splitBy_pair] at hq
      cases h : splitBy cut (b :: rest) with
      | nil =>
        obtain ⟨t, qs, h2⟩ := splitBy_cons_head cut rest b
        rw [h] at h2
        cases h2
      | cons q1 qs =>
        rw [h] at hq
        have hq3 : q ∈ (if cut a b = true then [a] :: q1 :: qs else (a :: q1) :: qs) := hq
        clear hq
        rename' hq3 => hq
        by_cases hc : cut a b = true
        · rw [if_pos hc] at hq
          rcases List.mem_cons.mp hq with rfl | hq2
          · exact List.chain'_singleton a
          · exact ih q (h ▸ hq2)
        · rw [if_neg hc] at hq
          rcases List.mem_cons.mp hq with rfl | hq2
          · obtain ⟨t, qs', h2⟩ := splitBy_cons_head cut rest b
            rw [h] at h2
            injection h2 with h3 h4
            have hq1 : List.Chain' (fun a b => cut a b = false) q1 :=
              ih q1 (h ▸ List.mem_cons_self q1 qs)
            rw [h3] at hq1 ⊢
            rw [List.chain'_cons]
            exact ⟨eq_false_of_ne_true hc, hq1⟩
          · exact ih q (h ▸ List.mem_cons_of_mem q1 hq2)

/-- Flattening a flatMap whose function is flatten-preserving flattens
to the original. -/
theorem flatten_flatMap_eq (f : List Char → List (List Char)) :
    ∀ l : List (List Char), (∀ x ∈ l, (f x).flatten = x) →
      (l.flatMap f).flatten = l.flatten := by
  intro l
  induction l with
  | nil => intro _; rfl
  | cons x xs ih =>
    intro h
    rw [List.flatMap_cons, List.flatten_append, List.flatten_cons,
      h x (List.mem_cons_self x xs), ih (fun y hy => h y (List.mem_cons_of_mem x hy))]

/-- The space-level pieces flatten back to the piece. -/
theorem piecesSpace_flatten (cs : Nat) (p : List Char) : (piecesSpace cs p).flatten = p := by
  unfold piecesSpace
  split
  · simp
  · exact splitBy_flatten spaceCut p

/-- The line-level pieces flatten back to the piece. -/
theorem piecesLine_flatten (cs : Nat) (p : List Char) : (piecesLine cs p).flatten = p := by
  unfold piecesLine
  split
  · simp
  · rw [flatten_flatMap_eq _ _ (fun x _ => piecesSpace_flatten cs x)]
    exact splitBy_flatten lineCut p

/-- The full splitting stage flattens back to the input text. -/
theorem piecesOf_flatten (cs : Nat) (t : List Char) : (piecesOf cs t).flatten = t := by
  unfold piecesOf
  rw [flatten_flatMap_eq _ _ (fun x _ => piecesLine_flatten cs x)]
  exact splitBy_flatten paraCut t

/-- A chained piece of length at least two avoids the separator
entirely. -/
theorem chain_no_elem (s : Char) :
    ∀ q : List Char, List.Chain' (fun a b => (a == s || b == s) = false) q →
      2 ≤ q.length → ∀ c ∈ q, c ≠ s := by
  intro q
  induction q with
  | nil => intro _ _ c hc; cases hc
  | cons a q' ih =>
    intro hchain hlen c hc
    cases q' with
    | nil => simp at hlen
    | cons b r =>
      rw [List.chain'_cons] at hchain
      have hab : a ≠ s ∧ b ≠ s := by
        have h1 := hchain.1
        rw [Bool.or_eq_false_iff] at h1
        exact ⟨by simpa using h1.1, by simpa using h1.2⟩
      rcases List.mem_cons.mp hc with rfl | hc2
      · exact hab.1
      · cases r with
        | nil =>
          rcases List.mem_singleton.mp hc2 with rfl
          exact hab.2
        | cons d r' =>
          exact ih hchain.2 (by simp) c hc2

/-- Every piece produced by the splitting stage is within the size
bound or free of separators. -/
theorem piecesOf_inv (cs : Nat) (hcs : 1 ≤ cs) (t : List Char) :
    ∀ q ∈ piecesOf cs t, q.length ≤ cs ∨ sepFree q := by
  intro q hq
  unfold piecesOf at hq
  rcases List.mem_flatMap.mp hq with ⟨s, _hs, hqs⟩
  unfold piecesLine at hqs
  by_cases hslen : s.length ≤ cs
  · rw [if_pos hslen] at hqs
    rcases List.mem_singleton.mp hqs with rfl
    exact Or.inl hslen
  · rw [if_neg hslen] at hqs
    rcases List.mem_flatMap.mp hqs with ⟨r, hr, hqr⟩
    unfold piecesSpace at hqr
    by_cases hrlen : r.length ≤ cs
    · rw [if_pos hrlen] at hqr
      rcases List.mem_singleton.mp hqr with rfl
      exact Or.inl hrlen
    · rw [if_neg hrlen] at hqr
      by_cases hqlen : q.length ≤ cs
      · exact Or.inl hqlen
      · refine Or.inr ?_
        have hq2 : 2 ≤ q.length := by omega
        have hr2 : 2 ≤ r.length := by omega
        have hnospace : ∀ c ∈ q, c ≠ ' ' :=
          chain_no_elem ' ' q (splitBy_chain spaceCut r q hqr) hq2
        have hrnonl : ∀ c ∈ r, c ≠ '\n' :=
          chain_no_elem '\n' r (splitBy_chain lineCut s r hr) hr2
        intro c hc
        exact ⟨hrnonl c (splitBy_chars spaceCut r q hqr c hc), hnospace c hc⟩

/-- `fill` consumes a leading run of whole pieces and appends their
concatenation to the accumulator. -/
theorem fill_spec (cs : Nat) :
    ∀ (ps : List (List Char)) (acc a : List Char) (r : List (List Char)),
      fill cs acc ps = (a, r) → ∃ cp, ps = cp ++ r ∧ a = acc ++ cp.flatten := by
  intro ps
  induction ps with
  | nil =>
    intro acc a r h
    injection h with h1 h2
    exact ⟨[], by rw [← h2]; rfl, by simp [← h1]⟩
  | cons p ps' ih =>
    intro acc a r h
    rw [show fill cs acc (p :: ps')
          = if acc.length + p.length ≤ cs then fill cs (acc ++ p) ps' else (acc, p :: ps')
        from rfl] at h
    by_cases hfit : acc.length + p.length ≤ cs
    · rw [if_pos hfit] at h
      obtain ⟨cp, hps, hacc⟩ := ih (acc ++ p) a r h
      refine ⟨p :: cp, by rw [List.cons_append, hps], ?_⟩
      rw [hacc, List.flatten_cons, List.append_assoc]
    · rw [if_neg hfit] at h
      injection h with h1 h2
      exact ⟨[], by rw [← h2]; rfl, by simp [← h1]⟩

/-- When `fill` stops with an unconsumed piece, that piece does not fit. -/
theorem fill_stop (cs : Nat) :
    ∀ (ps : List (List Char)) (acc a p : List Char) (r : List (List Char)),
      fill cs acc ps = (a, p :: r) → cs < a.length + p.length := by
  intro ps
  induction ps with
  | nil =>
    intro acc a p r h
    injection h with h1 h2
    cases h2
  | cons p0 ps' ih =>
    intro acc a p r h
    rw [show fill cs acc (p0 :: ps')
          = if acc.length + p0.length ≤ cs then fill cs (acc ++ p0) ps' else (acc, p0 :: ps')
        from rfl] at h
    by_cases hfit : acc.length + p0.length ≤ cs
    · rw [if_pos hfit] at h
      exact ih (acc ++ p0) a p r h
    · rw [if_neg hfit] at h
      injection h with h1 h2
      injection h2 with h3 h4
      rw [← h1, ← h3]
      omega

/-- `fill` keeps the accumulator within the bound. -/
theorem fill_le (cs : Nat) :
    ∀ (ps : List (List Char)) (acc a : List Char) (r : List (List Char)),
      fill cs acc ps = (a, r) → acc.length ≤ cs → a.length ≤ cs := by
  intro ps
  induction ps with
  | nil =>
    intro acc a r h hle
    injection h with h1 _
    rw [← h1]
    exact hle
  | cons p ps' ih =>
    intro acc a r h hle
    rw [show fill cs acc (p :: ps')
          = if acc.length + p.length ≤ cs then fill cs (acc ++ p) ps' else (acc, p :: ps')
        from rfl] at h
    by_cases hfit : acc.length + p.length ≤ cs
    · rw [if_pos hfit] at h
      exact ih (acc ++ p) a r h (by rw [List.length_append]; omega)
    · rw [if_neg hfit] at h
      injection h with h1 _
      rw [← h1]
      exact hle

/-- The trailing slice is never longer than requested. -/
theorem lastN_length_le (n : Nat) (l : List Char) : (lastN n l).length ≤ n := by
  unfold lastN
  rw [List.length_drop]
  omega

/-- On a long enough list the trailing slice has exactly the requested
length. -/
theorem lastN_length_eq (n : Nat) (l : List Char) (h : n ≤ l.length) :
    (lastN n l).length = n := by
  unfold lastN
  rw [List.length_drop]
  omega

/-- The weight of an appended piece list is the sum of the weights. -/
theorem piecesWeight_append (l1 l2 : List (List Char)) :
    piecesWeight (l1 ++ l2) = piecesWeight l1 + piecesWeight l2 := by
  unfold piecesWeight
  rw [List.length_append, List.map_append, List.sum_append]
  omega

/-- The weight of a cons. -/
theorem piecesWeight_cons (p : List Char) (ps : List (List Char)) :
    piecesWeight (p :: ps) = 1 + p.length + piecesWeight ps := by
  unfold piecesWeight
  rw [List.length_cons, List.map_cons, List.sum_cons]
  omega

/-- Step equation for `mergeChunks` with positive fuel. -/
theorem mergeChunks_succ (cs ov n : Nat) (carry : List Char) (pieces : List (List Char)) :
    mergeChunks cs ov (n + 1) carry pieces =
      match fill cs carry pieces with
      | (acc, []) => [acc]
      | (acc, p :: ps) =>
        if ov ≤ acc.length ∧ carry.length < acc.length then
          acc :: mergeChunks cs ov n (lastN ov acc) (p :: ps)
        else if cs < p.length ∨ cs ≤ acc.length then
          match ps with
          | [] => [acc ++ p]
          | _ :: _ => (acc ++ p) :: mergeChunks cs ov n (lastN ov (acc ++ p)) ps
        else
          (acc ++ p.take (cs - acc.length)) ::
            mergeChunks cs ov n (lastN ov (acc ++ p.take (cs - acc.length)))
              (p.drop (cs - acc.length) :: ps) := rfl

/-- Step equation for `mergeChunks` when `fill` leaves pieces over. -/
theorem mergeChunks_cons (cs ov n : Nat) (carry acc p : List Char)
    (ps pieces : List (List Char)) (hfill : fill cs carry pieces = (acc, p :: ps)) :
    mergeChunks cs ov (n + 1) carry pieces = mergeStep cs ov n carry acc p ps := by
  rw [mergeChunks_succ, hfill]
  rfl

/-- The close-at-piece-boundary branch of the reassembly step. -/
theorem mergeStep_close (cs ov n : Nat) (carry acc p : List Char) (ps : List (List Char))
    (h1 : ov ≤ acc.length ∧ carry.length < acc.length) :
    mergeStep cs ov n carry acc p ps = acc :: mergeChunks cs ov n (lastN ov acc) (p :: ps) := by
  unfold mergeStep
  rw [if_pos h1]

/-- The oversized-piece branch of the reassembly step ending the run. -/
theorem mergeStep_over_nil (cs ov n : Nat) (carry acc p : List Char)
    (h1 : ¬ (ov ≤ acc.length ∧ carry.length < acc.length))
    (h2 : cs < p.length ∨ cs ≤ acc.length) :
    mergeStep cs ov n carry acc p [] = [acc ++ p] := by
  unfold mergeStep
  rw [if_neg h1, if_pos h2]

/-- The oversized-piece branch of the reassembly step with pieces left. -/
theorem mergeStep_over_cons (cs ov n : Nat) (carry acc p p2 : List Char)
    (ps2 : List (List Char))
    (h1 : ¬ (ov ≤ acc.length ∧ carry.length < acc.length))
    (h2 : cs < p.length ∨ cs ≤ acc.length) :
    mergeStep cs ov n carry acc p (p2 :: ps2)
      = (acc ++ p) :: mergeChunks cs ov n (lastN ov (acc ++ p)) (p2 :: ps2) := by
  unfold mergeStep
  rw [if_neg h1, if_pos h2]

/-- The raw-character-cut branch of the reassembly step. -/
theorem mergeStep_cut (cs ov n : Nat) (carry acc p : List Char) (ps : List (List Char))
    (h1 : ¬ (ov ≤ acc.length ∧ carry.length < acc.length))
    (h2 : ¬ (cs < p.length ∨ cs ≤ acc.length)) :
    mergeStep cs ov n carry acc p ps
      = (acc ++ p.take (cs - acc.length)) ::
          mergeChunks cs ov n (lastN ov (acc ++ p.take (cs - acc.length)))
            (p.drop (cs - acc.length) :: ps) := by
  unfold mergeStep
  rw [if_neg h1, if_neg h2]

/-- Reassembly invariant: the chunk list starts with the carry followed
by fresh text, and dropping each later chunk's leading `overlap`
characters recovers exactly the concatenation of the pieces. -/
theorem mergeChunks_reconstruct (cs ov : Nat) (hov : ov < cs) :
    ∀ (fuel : Nat) (carry : List Char) (pieces : List (List Char)),
      piecesWeight pieces < fuel → carry.length ≤ ov →
      ∃ t0 rest, mergeChunks cs ov fuel carry pieces = (carry ++ t0) :: rest ∧
        t0 ++ (rest.map (List.drop ov)).flatten = pieces.flatten := by
  intro fuel
  induction fuel with
  | zero =>
    intro carry pieces hw _
    exact absurd hw (by omega)
  | succ n ih =>
    intro carry pieces hw hcarry
    cases hfill : fill cs carry pieces with
    | mk acc rest =>
      obtain ⟨cp, hps, hacc⟩ := fill_spec cs pieces carry acc rest hfill
      cases rest with
      | nil =>
        have hstep : mergeChunks cs ov (n + 1) carry pieces = [acc] := by
          rw [mergeChunks_succ, hfill]
        refine ⟨cp.flatten, [], ?_, ?_⟩
        · rw [hstep, hacc]
        · rw [hps]
          simp
      | cons p ps =>
        have hwpieces : piecesWeight pieces = piecesWeight cp + piecesWeight (p :: ps) := by
          rw [hps, piecesWeight_append]
        by_cases h1 : ov ≤ acc.length ∧ carry.length < acc.length
        · -- close the chunk at this piece boundary
          have hstep : mergeChunks cs ov (n + 1) carry pieces
              = acc :: mergeChunks cs ov n (lastN ov acc) (p :: ps) := by
            rw [mergeChunks_cons cs ov n carry acc p ps pieces hfill,
              mergeStep_close cs ov n carry acc p ps h1]
          have hcp : cp ≠ [] := by
            intro h0
            rw [h0] at hacc
            simp only [List.flatten_nil, List.append_nil] at hacc
            rw [hacc] at h1
            exact absurd h1.2 (lt_irrefl _)
          have hwcp : 1 ≤ piecesWeight cp := by
            cases cp with
            | nil => exact absurd rfl hcp
            | cons x xs => rw [piecesWeight_cons]; omega
          have hwrec : piecesWeight (p :: ps) < n := by omega
          have hlen : (lastN ov acc).length = ov := lastN_length_eq ov acc h1.1
          obtain ⟨t0', rest', hrec, hrecon⟩ :=
            ih (lastN ov acc) (p :: ps) hwrec (le_of_eq hlen)
          refine ⟨cp.flatten, (lastN ov acc ++ t0') :: rest', ?_, ?_⟩
          · rw [hstep, hrec, hacc]
          · rw [List.map_cons, List.flatten_cons]
            have hdrop : List.drop ov (lastN ov acc ++ t0') = t0' := by
              have h := List.drop_left (lastN ov acc) t0'
              rwa [hlen] at h
            rw [hdrop, hrecon, hps, List.flatten_append]
        · by_cases h2 : cs < p.length ∨ cs ≤ acc.length
          · -- carry an oversized piece into the chunk whole
            have hacclen : acc.length ≤ cs :=
              fill_le cs pieces carry acc (p :: ps) hfill (by omega)
            have hchunk : ov ≤ (acc ++ p).length := by
              rw [List.length_append]
              rcases h2 with h2 | h2 <;> omega
            cases ps with
            | nil =>
              have hstep : mergeChunks cs ov (n + 1) carry pieces = [acc ++ p] := by
                rw [mergeChunks_cons cs ov n carry acc p [] pieces hfill,
                  mergeStep_over_nil cs ov n carry acc p h1 h2]
              refine ⟨cp.flatten ++ p, [], ?_, ?_⟩
              · rw [hstep, hacc, List.append_assoc]
              · rw [hps]
                simp
            | cons p2 ps2 =>
              have hstep : mergeChunks cs ov (n + 1) carry pieces
                  = (acc ++ p) :: mergeChunks cs ov n (lastN ov (acc ++ p)) (p2 :: ps2) := by
                rw [mergeChunks_cons cs ov n carry acc p (p2 :: ps2) pieces hfill,
                  mergeStep_over_cons cs ov n carry acc p p2 ps2 h1 h2]
              have hwrec : piecesWeight (p2 :: ps2) < n := by
                rw [hwpieces, piecesWeight_cons] at hw
                omega
              obtain ⟨t0', rest', hrec, hrecon⟩ :=
                ih (lastN ov (acc ++ p)) (p2 :: ps2) hwrec (lastN_length_le _ _)
              have hlen : (lastN ov (acc ++ p)).length = ov := lastN_length_eq _ _ hchunk
              refine ⟨cp.flatten ++ p, (lastN ov (acc ++ p) ++ t0') :: rest', ?_, ?_⟩
              · rw [hstep, hrec, hacc, List.append_assoc]
              · rw [List.map_cons, List.flatten_cons]
                have hdrop : List.drop ov (lastN ov (acc ++ p) ++ t0') = t0' := by
                  have h := List.drop_left (lastN ov (acc ++ p)) t0'
                  rwa [hlen] at h
                rw [hdrop, hrecon, hps, List.flatten_append, List.flatten_cons,
                  List.append_assoc]
                simp [List.flatten_cons]
          · -- last resort: cut the piece at a raw character boundary
            have h2' := h2
            push_neg at h2'
            have hstop := fill_stop cs pieces carry acc p ps hfill
            have htake : (p.take (cs - acc.length)).length = cs - acc.length := by
              rw [List.length_take]
              omega
            have hchunklen : (acc ++ p.take (cs - acc.length)).length = cs := by
              rw [List.length_append, htake]
              omega
            have hstep : mergeChunks cs ov (n + 1) carry pieces
                = (acc ++ p.take (cs - acc.length)) ::
                    mergeChunks cs ov n (lastN ov (acc ++ p.take (cs - acc.length)))
                      (p.drop (cs - acc.length) :: ps) := by
              rw [mergeChunks_cons cs ov n carry acc p ps pieces hfill,
                mergeStep_cut cs ov n carry acc p ps h1 h2]
            have hwrec : piecesWeight (p.drop (cs - acc.length) :: ps) < n := by
              rw [hwpieces, piecesWeight_cons] at hw
              rw [piecesWeight_cons, List.length_drop]
              omega
            obtain ⟨t0', rest', hrec, hrecon⟩ :=
              ih (lastN ov (acc ++ p.take (cs - acc.length)))
                (p.drop (cs - acc.length) :: ps) hwrec (lastN_length_le _ _)
            have hlen : (lastN ov (acc ++ p.take (cs - acc.length))).length = ov :=
              lastN_length_eq _ _ (by rw [hchunklen]; omega)
            refine ⟨cp.flatten ++ p.take (cs - acc.length),
              (lastN ov (acc ++ p.take (cs - acc.length)) ++ t0') :: rest', ?_, ?_⟩
            · rw [hstep, hrec, hacc, List.append_assoc]
            · rw [List.map_cons, List.flatten_cons]
              have hdrop : List.drop ov
                  (lastN ov (acc ++ p.take (cs - acc.length)) ++ t0') = t0' := by
                have h := List.drop_left (lastN ov (acc ++ p.take (cs - acc.length))) t0'
                rwa [hlen] at h
              rw [hdrop, hrecon, hps, List.flatten_append, List.flatten_cons,
                List.flatten_cons, List.append_assoc, ← List.append_assoc (p.take _),
                List.take_append_drop]

/-- Size invariant: every chunk respects the bound unless it carries an
indivisible separator-free unit longer than the bound, kept whole as a
suffix. -/
theorem mergeChunks_size (cs ov : Nat) (hov : ov < cs) :
    ∀ (fuel : Nat) (carry : List Char) (pieces : List (List Char)),
      piecesWeight pieces < fuel → carry.length ≤ ov →
      (∀ p ∈ pieces, p.length ≤ cs ∨ sepFree p) →
      ∀ chunk ∈ mergeChunks cs ov fuel carry pieces,
        chunk.length ≤ cs ∨ ∃ u, cs < u.length ∧ sepFree u ∧ u <:+ chunk := by
  intro fuel
  induction fuel with
  | zero =>
    intro carry pieces hw _ _ chunk hc
    exact absurd hw (by omega)
  | succ n ih =>
    intro carry pieces hw hcarry hinv
    cases hfill : fill cs carry pieces with
    | mk acc rest =>
      obtain ⟨cp, hps, hacc⟩ := fill_spec cs pieces carry acc rest hfill
      have hacclen : acc.length ≤ cs := fill_le cs pieces carry acc rest hfill (by omega)
      cases rest with
      | nil =>
        have hstep : mergeChunks cs ov (n + 1) carry pieces = [acc] := by
          rw [mergeChunks_succ, hfill]
        intro chunk hc
        rw [hstep] at hc
        rcases List.mem_singleton.mp hc with rfl
        exact Or.inl hacclen
      | cons p ps =>
        have hwpieces : piecesWeight pieces = piecesWeight cp + piecesWeight (p :: ps) := by
          rw [hps, piecesWeight_append]
        have hinv' : ∀ q ∈ p :: ps, q.length ≤ cs ∨ sepFree q := by
          intro q hq
          exact hinv q (hps ▸ List.mem_append_right cp hq)
        by_cases h1 : ov ≤ acc.length ∧ carry.length < acc.length
        · have hstep : mergeChunks cs ov (n + 1) carry pieces
              = acc :: mergeChunks cs ov n (lastN ov acc) (p :: ps) := by
            rw [mergeChunks_cons cs ov n carry acc p ps pieces hfill,
              mergeStep_close cs ov n carry acc p ps h1]
          have hcp : cp ≠ [] := by
            intro h0
            rw [h0] at hacc
            simp only [List.flatten_nil, List.append_nil] at hacc
            rw [hacc] at h1
            exact absurd h1.2 (lt_irrefl _)
          have hwcp : 1 ≤ piecesWeight cp := by
            cases cp with
            | nil => exact absurd rfl hcp
            | cons x xs => rw [piecesWeight_cons]; omega
          have hwrec : piecesWeight (p :: ps) < n := by omega
          intro chunk hc
          rw [hstep] at hc
          rcases List.mem_cons.mp hc with rfl | hc2
          · exact Or.inl hacclen
          · exact ih (lastN ov acc) (p :: ps) hwrec (lastN_length_le _ _) hinv' chunk hc2
        · by_cases h2 : cs < p.length ∨ cs ≤ acc.length
          · have hp : cs < p.length := by
              rcases h2 with h2 | h2
              · exact h2
              · exact absurd ⟨by omega, by omega⟩ h1
            have hpfree : sepFree p := by
              rcases hinv' p (List.mem_cons_self p ps) with h | h
              · omega
              · exact h
            cases ps with
            | nil =>
              have hstep : mergeChunks cs ov (n + 1) carry pieces = [acc ++ p] := by
                rw [mergeChunks_cons cs ov n carry acc p [] pieces hfill,
                  mergeStep_over_nil cs ov n carry acc p h1 h2]
              intro chunk hc
              rw [hstep] at hc
              rcases List.mem_singleton.mp hc with rfl
              exact Or.inr ⟨p, hp, hpfree, ⟨acc, rfl⟩⟩
            | cons p2 ps2 =>
              have hstep : mergeChunks cs ov (n + 1) carry pieces
                  = (acc ++ p) :: mergeChunks cs ov n (lastN ov (acc ++ p)) (p2 :: ps2) := by
                rw [mergeChunks_cons cs ov n carry acc p (p2 :: ps2) pieces hfill,
                  mergeStep_over_cons cs ov n carry acc p p2 ps2 h1 h2]
              have hwrec : piecesWeight (p2 :: ps2) < n := by
                rw [hwpieces, piecesWeight_cons] at hw
                omega
              intro chunk hc
              rw [hstep] at hc
              rcases List.mem_cons.mp hc with rfl | hc2
              · exact Or.inr ⟨p, hp, hpfree, ⟨acc, rfl⟩⟩
              · exact ih (lastN ov (acc ++ p)) (p2 :: ps2) hwrec (lastN_length_le _ _)
                  (fun q hq => hinv' q (List.mem_cons_of_mem p hq)) chunk hc2
          · have h2' := h2
            push_neg at h2'
            have hstop := fill_stop cs pieces carry acc p ps hfill
            have htake : (p.take (cs - acc.length)).length = cs - acc.length := by
              rw [List.length_take]
              omega
            have hchunklen : (acc ++ p.take (cs - acc.length)).length = cs := by
              rw [List.length_append, htake]
              omega
            have hstep : mergeChunks cs ov (n + 1) carry pieces
                = (acc ++ p.take (cs - acc.length)) ::
                    mergeChunks cs ov n (lastN ov (acc ++ p.take (cs - acc.length)))
                      (p.drop (cs - acc.length) :: ps) := by
              rw [mergeChunks_cons cs ov n carry acc p ps pieces hfill,
                mergeStep_cut cs ov n carry acc p ps h1 h2]
            have hwrec : piecesWeight (p.drop (cs - acc.length) :: ps) < n := by
              rw [hwpieces, piecesWeight_cons] at hw
              rw [piecesWeight_cons, List.length_drop]
              omega
            have hinv'' : ∀ q ∈ p.drop (cs - acc.length) :: ps,
                q.length ≤ cs ∨ sepFree q := by
              intro q hq
              rcases List.mem_cons.mp hq with rfl | hq2
              · exact Or.inl (by rw [List.length_drop]; omega)
              · exact hinv' q (List.mem_cons_of_mem p hq2)
            intro chunk hc
            rw [hstep] at hc
            rcases List.mem_cons.mp hc with rfl | hc2
            · exact Or.inl (le_of_eq hchunklen)
            · exact ih _ _ hwrec (lastN_length_le _ _) hinv'' chunk hc2

/-- C2: for every text and every valid chunk-size and overlap pair —
in this deployment 512 and 100 — concatenating the chunks after
discarding each non-first chunk's leading overlap-length head
reconstructs the text exactly. -/
theorem splitText_reconstruction (cs ov : Nat) (t : List Char) (hov : ov < cs) :
    reconstruct ov (splitText cs ov t) = t := by
  unfold splitText
  by_cases hlen : t.length ≤ cs
  · rw [if_pos hlen]
    show t ++ (([] : List (List Char)).map (List.drop ov)).flatten = t
    simp
  · rw [if_neg hlen]
    obtain ⟨t0, rest, heq, hrecon⟩ := mergeChunks_reconstruct cs ov hov
      (piecesWeight (piecesOf cs t) + 1) [] (piecesOf cs t) (by omega) (by simp)
    rw [heq]
    show ([] ++ t0) ++ (rest.map (List.drop ov)).flatten = t
    rw [List.nil_append, hrecon, piecesOf_flatten]

/-- C2 witness: the deployment parameters are valid and reconstruction
holds on a concrete text. -/
theorem splitText_reconstruction_witness :
    100 < 512 ∧
    reconstruct 100 (splitText 512 100 ("Max Verstappen won the 2023 title.").data)
      = ("Max Verstappen won the 2023 title.").data :=
  ⟨by decide, splitText_reconstruction 512 100 ("Max Verstappen won the 2023 title.").data
    (by decide)⟩

/-- C3: with chunk size 512 every chunk stays within 512 characters
unless it carries, emitted whole as a suffix, an indivisible
separator-free unit longer than 512; and a text shorter than 512 yields
exactly one chunk, the text itself, with no overlap applied. -/
theorem splitText_size_bound :
    (∀ (t : List Char), ∀ chunk ∈ splitText 512 100 t,
       chunk.length ≤ 512 ∨ ∃ u, 512 < u.length ∧ sepFree u ∧ u <:+ chunk) ∧
    (∀ t : List Char, t.length < 512 → splitText 512 100 t = [t]) := by
  constructor
  · intro t chunk hc
    unfold splitText at hc
    by_cases hlen : t.length ≤ 512
    · rw [if_pos hlen] at hc
      rcases List.mem_singleton.mp hc with rfl
      exact Or.inl hlen
    · rw [if_neg hlen] at hc
      exact mergeChunks_size 512 100 (by omega) _ [] (piecesOf 512 t) (by omega) (by simp)
        (piecesOf_inv 512 (by omega) t) chunk hc
  · intro t h
    unfold splitText
    rw [if_pos (by omega : t.length ≤ 512)]

/-- C3 witness: a short text is one chunk, itself. -/
theorem splitText_size_bound_witness :
    splitText 512 100 ("Who won the 2023 championship?").data
      = [("Who won the 2023 championship?").data] :=
  splitText_size_bound.2 ("Who won the 2023 championship?").data (by decide)

end F1Bot
